import Mathlib

/-!
Shallow embedding of `src/arbitrage_scanner.py` (the arbitrage-scanner
repository).  Python floats are modelled as rationals (`ℚ`); the unguarded
float division in `process_prices` is modelled by `Except Unit`, where
`Except.error ()` stands for Python's `ZeroDivisionError`.  Container and
iteration order follow CPython semantics: `dict` preserves first-insertion
key order with last-write-wins values, and `defaultdict(list)` appends in
encounter order.
-/

namespace ArbScan

/-- The `MarketPrice` dataclass (lines 25-37 of `arbitrage_scanner.py`). -/
structure MarketPrice where
  platform : String
  event_id : String
  event_name : String
  outcome : String
  bid : ℚ
  ask : ℚ
  timestamp : ℚ
  deriving DecidableEq, Repr

/-- `MarketPrice.mid` (line 37): `(bid + ask) / 2 if self.bid and self.ask else 0.5`.
Python float truthiness: a float is falsy exactly when it equals `0.0`. -/
def MarketPrice.mid (p : MarketPrice) : ℚ :=
  if p.bid ≠ 0 ∧ p.ask ≠ 0 then (p.bid + p.ask) / 2 else 1 / 2

/-- One emitted opportunity record (the dict built at lines 163-170). -/
structure Opportunity where
  event : String
  buy_platform : String
  buy_price : ℚ
  sell_platform : String
  sell_price : ℚ
  net_spread : ℚ
  deriving DecidableEq, Repr

/-- The `ArbitrageEngine` state (lines 127-130): `min_spread` from the
constructor argument, `fee_pct` fixed to `1.0` by `__init__`. -/
structure ArbitrageEngine where
  min_spread : ℚ
  fee_pct : ℚ
  deriving DecidableEq, Repr

/-- `ArbitrageEngine.__init__(min_spread)` (lines 128-130): sets
`fee_pct = 1.0`. -/
def mkEngine (min_spread : ℚ) : ArbitrageEngine :=
  ⟨min_spread, 1⟩

/-- The engine built by `main` (line 184): `ArbitrageEngine(min_spread=MIN_SPREAD_PCT)`
with `MIN_SPREAD_PCT = 2.5` (line 22). -/
def engineDefault : ArbitrageEngine :=
  mkEngine (5 / 2)

/-- Python's `str.lower()`, modelled character-wise (ASCII case mapping over
the string's characters). -/
def strLower (s : String) : String :=
  ⟨s.data.map Char.toLower⟩

/-- The grouping key (line 137): `f"{price.event_name.lower()}|{price.outcome}"`. -/
def quoteKey (p : MarketPrice) : String :=
  strLower p.event_name ++ "|" ++ p.outcome

/-- Appending one price to a `defaultdict(list)` modelled as an ordered
association list: the first entry with the given key gets the price appended;
a missing key is created at the end (CPython dict insertion order). -/
def insertGrouped (g : List (String × List MarketPrice)) (k : String)
    (p : MarketPrice) : List (String × List MarketPrice) :=
  match g with
  | [] => [(k, [p])]
  | (k', ps) :: rest =>
      if k' = k then (k', ps ++ [p]) :: rest
      else (k', ps) :: insertGrouped rest k p

/-- The grouping loop (lines 134-138): `grouped[key].append(price)` over the
input in order. -/
def groupPrices (prices : List MarketPrice) : List (String × List MarketPrice) :=
  prices.foldl (fun g p => insertGrouped g (quoteKey p) p) []

/-- One assignment `platforms[p.platform] = p` into a CPython dict modelled as
an ordered association list: an existing key keeps its position but takes the
new value; a new key is appended. -/
def insertPlatform (d : List (String × MarketPrice)) (k : String)
    (p : MarketPrice) : List (String × MarketPrice) :=
  match d with
  | [] => [(k, p)]
  | (k', p') :: rest =>
      if k' = k then (k', p) :: rest
      else (k', p') :: insertPlatform rest k p

/-- `platforms = {p.platform: p for p in event_prices}` (line 144), then
`platform_list = list(platforms.items())` (line 145). -/
def platformDict (ps : List MarketPrice) : List (String × MarketPrice) :=
  ps.foldl (fun d p => insertPlatform d p.platform p) []

/-- Association-list lookup: the value at the first entry whose key matches
(CPython `dict.__getitem__` on the model). -/
def lookupPlat (d : List (String × MarketPrice)) (k : String) : Option MarketPrice :=
  match d with
  | [] => none
  | (k', p) :: rest => if k' = k then some p else lookupPlat rest k

/-- Group lookup by key (first entry whose key matches). -/
def lookupGroup (g : List (String × List MarketPrice)) (k : String) :
    List MarketPrice :=
  match g with
  | [] => []
  | (k', ps) :: rest => if k' = k then ps else lookupGroup rest k

/-- The double loop `for i ...: for j in range(i+1, ...)` (lines 147-148):
all index pairs `i < j`, in loop order. -/
def allPairs {α : Type} : List α → List (α × α)
  | [] => []
  | x :: xs => (xs.map fun y => (x, y)) ++ allPairs xs

/-- `net_spread = spread - (2 * self.fee_pct)` (line 160). -/
def netSpreadOf (spread fee_pct : ℚ) : ℚ :=
  spread - 2 * fee_pct

/-- The body of the inner pair loop (lines 149-170): conditional swap so the
lower mid is the buy side, the division by `price1` (Python raises
`ZeroDivisionError` exactly when `price1 == 0.0`, modelled as `Except.error ()`),
the fee deduction, and the threshold test `net_spread >= self.min_spread`. -/
def comparePair (eng : ArbitrageEngine) (event_key : String)
    (a b : String × MarketPrice) : Except Unit (Option Opportunity) :=
  let price1 := a.2.mid
  let price2 := b.2.mid
  let q1 := if price1 > price2 then price2 else price1
  let q2 := if price1 > price2 then price1 else price2
  let n1 := if price1 > price2 then b.1 else a.1
  let n2 := if price1 > price2 then a.1 else b.1
  if q1 = 0 then Except.error ()
  else
    let spread := ((q2 - q1) / q1) * 100
    let net_spread := netSpreadOf spread eng.fee_pct
    if net_spread ≥ eng.min_spread then
      Except.ok (some ⟨event_key, n1, q1, n2, q2, net_spread⟩)
    else
      Except.ok none

/-- Running the pair loop over a list of pairs, appending each emitted
opportunity in loop order; an exception aborts the whole call. -/
def processGroupPairs (eng : ArbitrageEngine) (key : String) :
    List ((String × MarketPrice) × (String × MarketPrice)) →
      Except Unit (List Opportunity)
  | [] => Except.ok []
  | pr :: rest =>
      match comparePair eng key pr.1 pr.2 with
      | Except.error e => Except.error e
      | Except.ok o =>
          match processGroupPairs eng key rest with
          | Except.error e => Except.error e
          | Except.ok opps => Except.ok (o.toList ++ opps)

/-- One iteration of the group loop (lines 140-170): groups with fewer than
two quotes are skipped (`if len(event_prices) < 2: continue`); otherwise the
platform dict is built and every platform pair is compared. -/
def processGroup (eng : ArbitrageEngine) (g : String × List MarketPrice) :
    Except Unit (List Opportunity) :=
  if g.2.length < 2 then Except.ok []
  else processGroupPairs eng g.1 (allPairs (platformDict g.2))

/-- The group loop over all groups in insertion order, concatenating the
per-group opportunity lists. -/
def processGroups (eng : ArbitrageEngine) :
    List (String × List MarketPrice) → Except Unit (List Opportunity)
  | [] => Except.ok []
  | g :: rest =>
      match processGroup eng g with
      | Except.error e => Except.error e
      | Except.ok here =>
          match processGroups eng rest with
          | Except.error e => Except.error e
          | Except.ok later => Except.ok (here ++ later)

/-- `ArbitrageEngine.process_prices` (lines 132-172). -/
def process_prices (eng : ArbitrageEngine) (prices : List MarketPrice) :
    Except Unit (List Opportunity) :=
  processGroups eng (groupPrices prices)

/-! ### Concrete quotes used by the evaluation theorems -/

/-- A Kalshi quote with mid `0.41` (the worked example of the spec). -/
def qKalshi : MarketPrice :=
  ⟨"Kalshi", "m1", "e", "YES", 2 / 5, 21 / 50, 0⟩

/-- A Polymarket quote with mid `0.51` (the worked example of the spec). -/
def qPoly : MarketPrice :=
  ⟨"Polymarket", "m2", "e", "YES", 1 / 2, 13 / 25, 0⟩

/-- The opportunity the default engine emits for `qKalshi` and `qPoly`:
raw spread `1000/41 ≈ 24.39`, net `918/41 ≈ 22.39`. -/
def oppExample : Opportunity :=
  ⟨"e|YES", "Kalshi", 41 / 100, "Polymarket", 51 / 100, 918 / 41⟩

/-- A quote whose mid-price is `0`: both sides nonzero (hence truthy in
Python), summing to zero. -/
def qZeroMid : MarketPrice :=
  ⟨"Polymarket", "m3", "e", "YES", -1, 1, 0⟩

/-- A malformed quote on the Kalshi platform whose mid-price is `-5`. -/
def qNegMid : MarketPrice :=
  ⟨"Kalshi", "m4", "e", "YES", -5, -5, 0⟩

/-- A quote whose event name contains the key separator `"|"`. -/
def qPipeA : MarketPrice :=
  ⟨"A", "m5", "e|x", "Y", 2 / 5, 21 / 50, 0⟩

/-- A quote whose outcome contains the key separator `"|"`, colliding with
`qPipeA`'s key although the two outcomes differ. -/
def qPipeB : MarketPrice :=
  ⟨"B", "m6", "e", "x|Y", 1 / 2, 13 / 25, 0⟩

/-- The opportunity emitted for the colliding-key pair `qPipeA`, `qPipeB`. -/
def oppPipe : Opportunity :=
  ⟨"e|x|Y", "A", 41 / 100, "B", 51 / 100, 918 / 41⟩

theorem qKalshi_key : quoteKey qKalshi = "e|YES" := by decide

theorem qPoly_key : quoteKey qPoly = "e|YES" := by decide

theorem qZeroMid_key : quoteKey qZeroMid = "e|YES" := by decide

theorem qNegMid_key : quoteKey qNegMid = "e|YES" := by decide

theorem qPipeA_key : quoteKey qPipeA = "e|x|Y" := by decide

theorem qPipeB_key : quoteKey qPipeB = "e|x|Y" := by decide

theorem qKalshi_platform : qKalshi.platform = "Kalshi" := rfl

theorem qPoly_platform : qPoly.platform = "Polymarket" := rfl

theorem qZeroMid_platform : qZeroMid.platform = "Polymarket" := rfl

theorem qNegMid_platform : qNegMid.platform = "Kalshi" := rfl

theorem qPipeA_platform : qPipeA.platform = "A" := rfl

theorem qPipeB_platform : qPipeB.platform = "B" := rfl

theorem qKalshi_mid : qKalshi.mid = 41 / 100 := by
  norm_num [MarketPrice.mid, qKalshi]

theorem qPoly_mid : qPoly.mid = 51 / 100 := by
  norm_num [MarketPrice.mid, qPoly]

theorem qZeroMid_mid : qZeroMid.mid = 0 := by
  norm_num [MarketPrice.mid, qZeroMid]

theorem qNegMid_mid : qNegMid.mid = -5 := by
  norm_num [MarketPrice.mid, qNegMid]

theorem qPipeA_mid : qPipeA.mid = 41 / 100 := by
  norm_num [MarketPrice.mid, qPipeA]

theorem qPipeB_mid : qPipeB.mid = 51 / 100 := by
  norm_num [MarketPrice.mid, qPipeB]

/-- Evaluation of the spec's worked example: `qKalshi` against `qPoly`
produces exactly `oppExample`. -/
theorem eval_example :
    process_prices engineDefault [qKalshi, qPoly] = Except.ok [oppExample] := by
  norm_num [process_prices, groupPrices, List.foldl, qKalshi_key, qPoly_key,
    insertGrouped, processGroups, processGroup, platformDict, insertPlatform,
    qKalshi_platform, qPoly_platform, allPairs, processGroupPairs, comparePair,
    qKalshi_mid, qPoly_mid, netSpreadOf, engineDefault, mkEngine, oppExample]

/-- Evaluation at a zero mid-price: the pair `qKalshi`, `qZeroMid` makes the
engine divide by zero (Python raises `ZeroDivisionError`). -/
theorem eval_zero_mid :
    process_prices engineDefault [qKalshi, qZeroMid] = Except.error () := by
  norm_num [process_prices, groupPrices, List.foldl, qKalshi_key, qZeroMid_key,
    insertGrouped, processGroups, processGroup, platformDict, insertPlatform,
    qKalshi_platform, qZeroMid_platform, allPairs, processGroupPairs, comparePair,
    qKalshi_mid, qZeroMid_mid, netSpreadOf, engineDefault, mkEngine]

/-- Evaluation with a malformed (negative-mid) Kalshi quote appended: it
overwrites the good Kalshi quote in the platform dict, its mid `-5` enters the
spread arithmetic, and no opportunity is emitted. -/
theorem eval_neg_mid :
    process_prices engineDefault [qKalshi, qPoly, qNegMid] = Except.ok [] := by
  norm_num [process_prices, groupPrices, List.foldl, qKalshi_key, qPoly_key,
    qNegMid_key, insertGrouped, processGroups, processGroup, platformDict,
    insertPlatform, qKalshi_platform, qPoly_platform, qNegMid_platform, allPairs,
    processGroupPairs, comparePair, qKalshi_mid, qPoly_mid, qNegMid_mid,
    netSpreadOf, engineDefault, mkEngine]

/-- Evaluation of the colliding-key quotes: `qPipeA` and `qPipeB` have
different outcomes yet share the grouping key `"e|x|Y"`, and the engine pairs
them and emits an opportunity. -/
theorem eval_pipe :
    process_prices engineDefault [qPipeA, qPipeB] = Except.ok [oppPipe] := by
  norm_num [process_prices, groupPrices, List.foldl, qPipeA_key, qPipeB_key,
    insertGrouped, processGroups, processGroup, platformDict, insertPlatform,
    qPipeA_platform, qPipeB_platform, allPairs, processGroupPairs, comparePair,
    qPipeA_mid, qPipeB_mid, netSpreadOf, engineDefault, mkEngine, oppPipe]

/-! ### Claims -/

/-- Claim C1: the spec mandates that a zero buy-price (lower mid-price) be
treated as "no opportunity" and skipped, never crashing with a division error.
The code divides by `price1` unguarded (line 159): at the failing input
`[qKalshi, qZeroMid]` the lower mid-price is `0` and `process_prices` raises
`ZeroDivisionError` (modelled as `Except.error ()`) instead of skipping. -/
theorem claim_C1_eval :
    qZeroMid.mid = 0 ∧
    process_prices engineDefault [qKalshi, qZeroMid] = Except.error () :=
  ⟨qZeroMid_mid, eval_zero_mid⟩

/-- Claim C2: the spec mandates that a quote with malformed (negative)
mid-price be excluded from consideration before any spread computation.  The
code does not filter: appending the negative-mid quote `qNegMid` overwrites the
good Kalshi quote (last-wins), its mid `-5` enters the spread arithmetic, and
the output changes from one opportunity to none — so the malformed quote was
considered, not excluded. -/
theorem claim_C2_eval :
    qNegMid.mid < 0 ∧
    process_prices engineDefault [qKalshi, qPoly, qNegMid] = Except.ok [] ∧
    process_prices engineDefault [qKalshi, qPoly] = Except.ok [oppExample] :=
  ⟨by rw [qNegMid_mid]; norm_num, eval_neg_mid, eval_example⟩

/-- Modelled from the spec: the mid-price contract of §3 — `(bid+ask)/2` when
both sides are present and non-zero, the neutral default `0.5` when either
side is missing or zero (absence is encoded as `0` per §3: "0 or absent means
unknown"). -/
def midSpec (p : MarketPrice) : ℚ :=
  if p.bid = 0 ∨ p.ask = 0 then 1 / 2 else (p.bid + p.ask) / 2

/-- Claim C7: the derived mid-price equals `(bid + ask) / 2` when both bid and
ask are non-zero, and the neutral default `0.5` when either side is zero
(missing sides being encoded as `0`): the code's truthiness test agrees with
the spec's case split. -/
theorem claim_C7 (p : MarketPrice) : p.mid = midSpec p := by
  unfold MarketPrice.mid midSpec
  by_cases hb : p.bid = 0 <;> by_cases ha : p.ask = 0 <;> simp [hb, ha]

/-- `comparePair` rewritten through `min`/`max`: the conditional swap makes
the buy price the smaller mid and the sell price the larger. -/
theorem comparePair_eq (eng : ArbitrageEngine) (key : String)
    (a b : String × MarketPrice) :
    comparePair eng key a b =
      if min a.2.mid b.2.mid = 0 then Except.error ()
      else
        if ((max a.2.mid b.2.mid - min a.2.mid b.2.mid) / min a.2.mid b.2.mid)
              * 100 - 2 * eng.fee_pct ≥ eng.min_spread then
          Except.ok (some ⟨key,
            if a.2.mid > b.2.mid then b.1 else a.1, min a.2.mid b.2.mid,
            if a.2.mid > b.2.mid then a.1 else b.1, max a.2.mid b.2.mid,
            ((max a.2.mid b.2.mid - min a.2.mid b.2.mid) / min a.2.mid b.2.mid)
              * 100 - 2 * eng.fee_pct⟩)
        else Except.ok none := by
  unfold comparePair netSpreadOf
  rcases lt_or_le b.2.mid a.2.mid with h | h
  · simp only [gt_iff_lt, if_pos h, min_eq_right h.le, max_eq_left h.le]
  · simp only [gt_iff_lt, if_neg (not_lt.mpr h), min_eq_left h, max_eq_right h]

/-- Every opportunity emitted by `comparePair` carries the smaller mid as buy
price, the larger as sell price, and the platform labels of the corresponding
quotes. -/
theorem comparePair_some (eng : ArbitrageEngine) (key : String)
    (a b : String × MarketPrice) (opp : Opportunity)
    (h : comparePair eng key a b = Except.ok (some opp)) :
    opp.buy_price = min a.2.mid b.2.mid ∧
    opp.sell_price = max a.2.mid b.2.mid ∧
    ((opp.buy_platform = a.1 ∧ opp.buy_price = a.2.mid ∧
      opp.sell_platform = b.1 ∧ opp.sell_price = b.2.mid) ∨
     (opp.buy_platform = b.1 ∧ opp.buy_price = b.2.mid ∧
      opp.sell_platform = a.1 ∧ opp.sell_price = a.2.mid)) := by
  rw [comparePair_eq] at h
  by_cases h0 : min a.2.mid b.2.mid = 0
  · rw [if_pos h0] at h
    exact absurd h (by simp)
  rw [if_neg h0] at h
  by_cases hth : ((max a.2.mid b.2.mid - min a.2.mid b.2.mid) /
      min a.2.mid b.2.mid) * 100 - 2 * eng.fee_pct ≥ eng.min_spread
  · rw [if_pos hth] at h
    obtain rfl : opp = _ := by
      have := h
      simp only [Except.ok.injEq, Option.some.injEq] at this
      exact this.symm
    rcases lt_or_le b.2.mid a.2.mid with hlt | hle
    · refine ⟨rfl, rfl, Or.inr ?_⟩
      simp [if_pos hlt, min_eq_right hlt.le, max_eq_left hlt.le]
    · refine ⟨rfl, rfl, Or.inl ?_⟩
      simp [if_neg (not_lt.mpr hle), min_eq_left hle, max_eq_right hle]
  · rw [if_neg hth] at h
    exact absurd h (by simp)

/-- Buy never exceeds sell in any opportunity produced by the pair loop. -/
theorem processGroupPairs_buy_le_sell (eng : ArbitrageEngine) (key : String)
    (l : List ((String × MarketPrice) × (String × MarketPrice)))
    (opps : List Opportunity)
    (h : processGroupPairs eng key l = Except.ok opps) :
    ∀ opp ∈ opps, opp.buy_price ≤ opp.sell_price := by
  induction l generalizing opps with
  | nil =>
      simp only [processGroupPairs, Except.ok.injEq] at h
      subst h
      intro opp hopp
      exact absurd hopp (List.not_mem_nil opp)
  | cons pr rest ih =>
      simp only [processGroupPairs] at h
      cases hc : comparePair eng key pr.1 pr.2 with
      | error e => rw [hc] at h; exact absurd h (by simp)
      | ok o =>
          rw [hc] at h
          cases hr : processGroupPairs eng key rest with
          | error e => rw [hr] at h; exact absurd h (by simp)
          | ok opps' =>
              rw [hr] at h
              simp only [Except.ok.injEq] at h
              subst h
              intro opp hopp
              rcases List.mem_append.mp hopp with hmem | hmem
              · cases o with
                | none => exact absurd hmem (by simp)
                | some o0 =>
                    simp only [Option.toList_some, List.mem_singleton] at hmem
                    subst hmem
                    obtain ⟨hb, hs, -⟩ := comparePair_some eng key pr.1 pr.2 opp hc
                    rw [hb, hs]
                    exact min_le_max
              · exact ih opps' hr opp hmem

/-- Buy never exceeds sell in any opportunity produced by one group. -/
theorem processGroup_buy_le_sell (eng : ArbitrageEngine)
    (g : String × List MarketPrice) (opps : List Opportunity)
    (h : processGroup eng g = Except.ok opps) :
    ∀ opp ∈ opps, opp.buy_price ≤ opp.sell_price := by
  unfold processGroup at h
  by_cases hlen : g.2.length < 2
  · rw [if_pos hlen] at h
    simp only [Except.ok.injEq] at h
    subst h
    intro opp hopp
    exact absurd hopp (List.not_mem_nil opp)
  · rw [if_neg hlen] at h
    exact processGroupPairs_buy_le_sell eng g.1 _ opps h

/-- Buy never exceeds sell in any opportunity produced by the group loop. -/
theorem processGroups_buy_le_sell (eng : ArbitrageEngine)
    (gs : List (String × List MarketPrice)) (opps : List Opportunity)
    (h : processGroups eng gs = Except.ok opps) :
    ∀ opp ∈ opps, opp.buy_price ≤ opp.sell_price := by
  induction gs generalizing opps with
  | nil =>
      simp only [processGroups, Except.ok.injEq] at h
      subst h
      intro opp hopp
      exact absurd hopp (List.not_mem_nil opp)
  | cons g rest ih =>
      simp only [processGroups] at h
      cases hg : processGroup eng g with
      | error e => rw [hg] at h; exact absurd h (by simp)
      | ok here =>
          rw [hg] at h
          cases hr : processGroups eng rest with
          | error e => rw [hr] at h; exact absurd h (by simp)
          | ok later =>
              rw [hr] at h
              simp only [Except.ok.injEq] at h
              subst h
              intro opp hopp
              rcases List.mem_append.mp hopp with hmem | hmem
              · exact processGroup_buy_le_sell eng g here hg opp hmem
              · exact ih later hr opp hmem

/-- Claim C3: for every platform pair the engine compares whose buy (lower)
mid-price `b` is positive with sell (higher) mid-price `s`, an opportunity is
emitted iff `((s − b) / b) × 100 − 2 × fee_pct ≥ min_spread`, and the emitted
record carries exactly that value as its net spread. -/
theorem claim_C3 (eng : ArbitrageEngine) (key : String)
    (a b : String × MarketPrice) (hb : 0 < min a.2.mid b.2.mid) :
    ((∃ opp, comparePair eng key a b = Except.ok (some opp)) ↔
      ((max a.2.mid b.2.mid - min a.2.mid b.2.mid) / min a.2.mid b.2.mid) * 100
          - 2 * eng.fee_pct ≥ eng.min_spread) ∧
    ∀ opp, comparePair eng key a b = Except.ok (some opp) →
      opp.net_spread =
        ((max a.2.mid b.2.mid - min a.2.mid b.2.mid) / min a.2.mid b.2.mid) * 100
          - 2 * eng.fee_pct := by
  rw [comparePair_eq, if_neg (ne_of_gt hb)]
  by_cases hth : ((max a.2.mid b.2.mid - min a.2.mid b.2.mid) /
      min a.2.mid b.2.mid) * 100 - 2 * eng.fee_pct ≥ eng.min_spread
  · rw [if_pos hth]
    refine ⟨⟨fun _ => hth, fun _ => ⟨_, rfl⟩⟩, ?_⟩
    intro opp h
    simp only [Except.ok.injEq, Option.some.injEq] at h
    rw [← h]
  · rw [if_neg hth]
    refine ⟨⟨?_, fun h => absurd h hth⟩, ?_⟩
    · rintro ⟨opp, h⟩
      exact absurd h (by simp)
    · intro opp h
      exact absurd h (by simp)

theorem claim_C3_witness :
    ∃ opp, comparePair engineDefault "e|YES" ("Kalshi", qKalshi)
      ("Polymarket", qPoly) = Except.ok (some opp) := by
  refine (claim_C3 engineDefault "e|YES" ("Kalshi", qKalshi) ("Polymarket", qPoly)
    ?_ ).1.mpr ?_
  · rw [show ("Kalshi", qKalshi).2 = qKalshi from rfl,
      show ("Polymarket", qPoly).2 = qPoly from rfl, qKalshi_mid, qPoly_mid]
    norm_num
  · rw [show ("Kalshi", qKalshi).2 = qKalshi from rfl,
      show ("Polymarket", qPoly).2 = qPoly from rfl, qKalshi_mid, qPoly_mid]
    norm_num [engineDefault, mkEngine]

/-- Looking a key up after one grouped insertion: the inserted key's group
gains the price at the end, every other key's group is unchanged. -/
theorem lookupGroup_insertGrouped (g : List (String × List MarketPrice))
    (k k' : String) (p : MarketPrice) :
    lookupGroup (insertGrouped g k p) k' =
      if k' = k then lookupGroup g k ++ [p] else lookupGroup g k' := by
  induction g with
  | nil =>
      by_cases h : k' = k
      · simp [insertGrouped, lookupGroup, h]
      · simp [insertGrouped, lookupGroup, h, Ne.symm h]
  | cons hd rest ih =>
      obtain ⟨k₀, ps₀⟩ := hd
      by_cases h₀ : k₀ = k
      · subst h₀
        by_cases h' : k' = k₀
        · simp [insertGrouped, lookupGroup, h']
        · simp [insertGrouped, lookupGroup, h', Ne.symm h']
      · by_cases h' : k' = k
        · subst h'
          have hne : k₀ ≠ k' := h₀
          simp [insertGrouped, lookupGroup, h₀, hne, ih]
        · by_cases h₀' : k₀ = k' <;>
            simp [insertGrouped, lookupGroup, h₀, h₀', ih, h']

/-- Folding the grouping step over a price list extends each key's group by
exactly the prices carrying that key, in input order. -/
theorem lookupGroup_foldl (prices : List MarketPrice)
    (g : List (String × List MarketPrice)) (k : String) :
    lookupGroup (prices.foldl (fun g p => insertGrouped g (quoteKey p) p) g) k =
      lookupGroup g k ++ prices.filter (fun q => quoteKey q = k) := by
  induction prices generalizing g with
  | nil => simp
  | cons p rest ih =>
      rw [List.foldl_cons, ih, lookupGroup_insertGrouped]
      by_cases h : quoteKey p = k
      · rw [if_pos h.symm, h]
        simp [List.filter_cons, h]
      · rw [if_neg fun hk => h hk.symm]
        simp [List.filter_cons, h]

/-- The group stored under key `k` is exactly the input prices whose key is
`k`, in input order. -/
theorem lookupGroup_groupPrices (prices : List MarketPrice) (k : String) :
    lookupGroup (groupPrices prices) k =
      prices.filter (fun q => quoteKey q = k) := by
  have h := lookupGroup_foldl prices [] k
  simpa [groupPrices, lookupGroup] using h

/-- The key list after one grouped insertion: unchanged when the key was
already present, extended at the end otherwise. -/
theorem keys_insertGrouped (g : List (String × List MarketPrice)) (k : String)
    (p : MarketPrice) :
    (insertGrouped g k p).map Prod.fst =
      if k ∈ g.map Prod.fst then g.map Prod.fst else g.map Prod.fst ++ [k] := by
  induction g with
  | nil => simp [insertGrouped]
  | cons hd rest ih =>
      obtain ⟨k₀, ps₀⟩ := hd
      by_cases h : k₀ = k
      · subst h
        simp [insertGrouped]
      · by_cases hk : k ∈ rest.map Prod.fst <;>
          simp [insertGrouped, h, Ne.symm h, ih, hk]

/-- The grouping map never holds two entries with the same key. -/
theorem groupPrices_keys_nodup (prices : List MarketPrice) :
    ((groupPrices prices).map Prod.fst).Nodup := by
  suffices h : ∀ g : List (String × List MarketPrice), (g.map Prod.fst).Nodup →
      (((prices.foldl (fun g p => insertGrouped g (quoteKey p) p) g)).map
        Prod.fst).Nodup by
    exact h [] (by simp)
  induction prices with
  | nil => intro g hg; simpa using hg
  | cons p rest ih =>
      intro g hg
      rw [List.foldl_cons]
      refine ih _ ?_
      rw [keys_insertGrouped]
      by_cases hk : quoteKey p ∈ g.map Prod.fst
      · rwa [if_pos hk]
      · rw [if_neg hk]
        simp [List.nodup_append, hg, hk]

/-- In an association list with distinct keys, lookup retrieves any entry's
value. -/
theorem lookupGroup_of_mem (g : List (String × List MarketPrice))
    (hnd : (g.map Prod.fst).Nodup) (k : String) (ps : List MarketPrice)
    (h : (k, ps) ∈ g) : lookupGroup g k = ps := by
  induction g with
  | nil => cases h
  | cons hd rest ih =>
      obtain ⟨k₀, ps₀⟩ := hd
      rcases List.mem_cons.mp h with heq | hmem
      · obtain ⟨rfl, rfl⟩ := Prod.mk.injEq .. ▸ heq
        · simp [lookupGroup]
      · have hk : k ∈ rest.map Prod.fst :=
          List.mem_map.mpr ⟨(k, ps), hmem, rfl⟩
        have hne : k₀ ≠ k := by
          rintro rfl
          exact (List.nodup_cons.mp (by simpa using hnd)).1 hk
        rw [lookupGroup, if_neg hne]
        exact ih (List.nodup_cons.mp (by simpa using hnd)).2 hmem

/-- A key whose lookup is non-empty has an actual entry in the list. -/
theorem mem_of_lookupGroup_ne_nil (g : List (String × List MarketPrice))
    (k : String) (h : lookupGroup g k ≠ []) : (k, lookupGroup g k) ∈ g := by
  induction g with
  | nil => simp [lookupGroup] at h
  | cons hd rest ih =>
      obtain ⟨k₀, ps₀⟩ := hd
      by_cases h₀ : k₀ = k
      · subst h₀
        simp [lookupGroup]
      · rw [lookupGroup, if_neg h₀] at h ⊢
        exact List.mem_cons_of_mem _ (ih h)

/-- Two quotes land in the same group of `process_prices`'s grouping map. -/
def sameGroup (prices : List MarketPrice) (q1 q2 : MarketPrice) : Prop :=
  ∃ k ps, (k, ps) ∈ groupPrices prices ∧ q1 ∈ ps ∧ q2 ∈ ps

/-- Claim C4, counterexample to "quotes with differing outcome are never
paired": the key is built by string concatenation with separator `"|"`, so
`qPipeA` (event `"e|x"`, outcome `"Y"`) and `qPipeB` (event `"e"`, outcome
`"x|Y"`) collide on key `"e|x|Y"` although their outcomes differ, and the
engine pairs them and emits an opportunity. -/
theorem claim_C4_counterexample :
    qPipeA.outcome ≠ qPipeB.outcome ∧
    process_prices engineDefault [qPipeA, qPipeB] = Except.ok [oppPipe] :=
  ⟨by decide, eval_pipe⟩

/-- Claim C4, amended: two input quotes are considered jointly (same group)
iff their concatenated keys `lower(event_name) ++ "|" ++ outcome` are equal;
equal case-insensitive event names together with equal outcomes always imply
joint consideration, but key equality does not force equal outcomes when an
event name contains `"|"`. -/
theorem claim_C4 (prices : List MarketPrice) (q1 q2 : MarketPrice)
    (h1 : q1 ∈ prices) (h2 : q2 ∈ prices) :
    (sameGroup prices q1 q2 ↔ quoteKey q1 = quoteKey q2) ∧
    (strLower q1.event_name = strLower q2.event_name ∧ q1.outcome = q2.outcome →
      sameGroup prices q1 q2) := by
  have main : sameGroup prices q1 q2 ↔ quoteKey q1 = quoteKey q2 := by
    constructor
    · rintro ⟨k, ps, hmem, hq1, hq2⟩
      have hps : lookupGroup (groupPrices prices) k = ps :=
        lookupGroup_of_mem _ (groupPrices_keys_nodup prices) _ _ hmem
      rw [← hps, lookupGroup_groupPrices] at hq1 hq2
      have e1 : quoteKey q1 = k := by
        simpa using (List.mem_filter.mp hq1).2
      have e2 : quoteKey q2 = k := by
        simpa using (List.mem_filter.mp hq2).2
      rw [e1, e2]
    · intro hk
      have hne : lookupGroup (groupPrices prices) (quoteKey q1) ≠ [] := by
        rw [lookupGroup_groupPrices]
        intro hnil
        have hq : q1 ∈ prices.filter (fun q => quoteKey q = quoteKey q1) :=
          List.mem_filter.mpr ⟨h1, by simp⟩
        rw [hnil] at hq
        exact absurd hq (List.not_mem_nil q1)
      refine ⟨quoteKey q1, lookupGroup (groupPrices prices) (quoteKey q1),
        mem_of_lookupGroup_ne_nil _ _ hne, ?_, ?_⟩
      · rw [lookupGroup_groupPrices]
        exact List.mem_filter.mpr ⟨h1, by simp⟩
      · rw [lookupGroup_groupPrices]
        exact List.mem_filter.mpr ⟨h2, by simp [hk]⟩
  refine ⟨main, fun h => main.mpr ?_⟩
  unfold quoteKey
  rw [h.1, h.2]

theorem claim_C4_witness :
    (sameGroup [qKalshi, qPoly] qKalshi qPoly ↔
      quoteKey qKalshi = quoteKey qPoly) ∧
    (strLower qKalshi.event_name = strLower qPoly.event_name ∧
        qKalshi.outcome = qPoly.outcome →
      sameGroup [qKalshi, qPoly] qKalshi qPoly) :=
  claim_C4 [qKalshi, qPoly] qKalshi qPoly (by simp) (by simp)

/-- Claim C5: in every emitted opportunity, `buy_price ≤ sell_price`; the buy
side carries the lower mid-price of the compared pair and the sell side the
higher, with the platform labels swapped accordingly. -/
theorem claim_C5 (eng : ArbitrageEngine) :
    (∀ prices opps, process_prices eng prices = Except.ok opps →
        ∀ opp ∈ opps, opp.buy_price ≤ opp.sell_price) ∧
    (∀ key a b opp, comparePair eng key a b = Except.ok (some opp) →
        opp.buy_price = min a.2.mid b.2.mid ∧
        opp.sell_price = max a.2.mid b.2.mid ∧
        ((opp.buy_platform = a.1 ∧ opp.buy_price = a.2.mid ∧
          opp.sell_platform = b.1 ∧ opp.sell_price = b.2.mid) ∨
         (opp.buy_platform = b.1 ∧ opp.buy_price = b.2.mid ∧
          opp.sell_platform = a.1 ∧ opp.sell_price = a.2.mid))) :=
  ⟨fun prices opps h => processGroups_buy_le_sell eng (groupPrices prices) opps h,
   fun key a b opp h => comparePair_some eng key a b opp h⟩

theorem claim_C5_witness : oppExample.buy_price ≤ oppExample.sell_price :=
  (claim_C5 engineDefault).1 [qKalshi, qPoly] [oppExample] eval_example
    oppExample (by simp)

/-- The last quote carrying a given platform in a list, if any (later quotes
take priority). -/
def lastQuoteFor (name : String) : List MarketPrice → Option MarketPrice
  | [] => none
  | p :: ps =>
      match lastQuoteFor name ps with
      | some q => some q
      | none => if p.platform = name then some p else none

/-- The distinct platforms of a quote list, in first-appearance order. -/
def distinctPlatforms (ps : List MarketPrice) : List String :=
  ps.foldl (fun acc p => if p.platform ∈ acc then acc else acc ++ [p.platform]) []

/-- Looking a key up after one platform-dict assignment: the assigned key now
holds the new value, every other key is unchanged. -/
theorem lookupPlat_insertPlatform (d : List (String × MarketPrice))
    (k k' : String) (p : MarketPrice) :
    lookupPlat (insertPlatform d k p) k' =
      if k' = k then some p else lookupPlat d k' := by
  induction d with
  | nil =>
      by_cases h : k' = k
      · simp [insertPlatform, lookupPlat, h]
      · simp [insertPlatform, lookupPlat, h, Ne.symm h]
  | cons hd rest ih =>
      obtain ⟨k₀, p₀⟩ := hd
      by_cases h₀ : k₀ = k
      · subst h₀
        by_cases h' : k' = k₀
        · simp [insertPlatform, lookupPlat, h']
        · simp [insertPlatform, lookupPlat, h', Ne.symm h']
      · by_cases h' : k' = k
        · subst h'
          have hne : k₀ ≠ k' := h₀
          simp [insertPlatform, lookupPlat, h₀, hne, ih]
        · by_cases h₀' : k₀ = k' <;>
            simp [insertPlatform, lookupPlat, h₀, h₀', ih, h']

/-- Folding the dict-comprehension step: lookup returns the last quote with
the platform among the folded quotes, else whatever the accumulator held. -/
theorem lookupPlat_foldl (ps : List MarketPrice)
    (d : List (String × MarketPrice)) (name : String) :
    lookupPlat (ps.foldl (fun d p => insertPlatform d p.platform p) d) name =
      match lastQuoteFor name ps with
      | some q => some q
      | none => lookupPlat d name := by
  induction ps generalizing d with
  | nil => simp [lastQuoteFor]
  | cons p rest ih =>
      rw [List.foldl_cons, ih]
      cases hlast : lastQuoteFor name rest with
      | some q => simp [lastQuoteFor, hlast]
      | none =>
          simp only [lastQuoteFor, hlast]
          rw [lookupPlat_insertPlatform]
          by_cases h : p.platform = name
          · rw [if_pos h.symm, if_pos h]
          · rw [if_neg fun hk => h hk.symm, if_neg h]

/-- `platforms[name]` is the last quote of the group with that platform:
CPython's dict comprehension is last-write-wins. -/
theorem lookupPlat_platformDict (ps : List MarketPrice) (name : String) :
    lookupPlat (platformDict ps) name = lastQuoteFor name ps := by
  unfold platformDict
  rw [lookupPlat_foldl]
  cases h : lastQuoteFor name ps with
  | some q => rfl
  | none => simp [lookupPlat]

/-- The key list after one platform-dict assignment: unchanged for a present
key, extended at the end for a new one. -/
theorem keys_insertPlatform (d : List (String × MarketPrice)) (k : String)
    (p : MarketPrice) :
    (insertPlatform d k p).map Prod.fst =
      if k ∈ d.map Prod.fst then d.map Prod.fst else d.map Prod.fst ++ [k] := by
  induction d with
  | nil => simp [insertPlatform]
  | cons hd rest ih =>
      obtain ⟨k₀, p₀⟩ := hd
      by_cases h : k₀ = k
      · subst h
        simp [insertPlatform]
      · by_cases hk : k ∈ rest.map Prod.fst <;>
          simp [insertPlatform, h, Ne.symm h, ih, hk]

/-- The platform dict's key list is the distinct-platform list of the group. -/
theorem keys_platformDict_aux (ps : List MarketPrice)
    (d : List (String × MarketPrice)) :
    (ps.foldl (fun d p => insertPlatform d p.platform p) d).map Prod.fst =
      ps.foldl (fun acc p => if p.platform ∈ acc then acc else acc ++ [p.platform])
        (d.map Prod.fst) := by
  induction ps generalizing d with
  | nil => simp
  | cons p rest ih =>
      rw [List.foldl_cons, List.foldl_cons, ih, keys_insertPlatform]

/-- The platform dict holds one entry per distinct platform of the group. -/
theorem keys_platformDict (ps : List MarketPrice) :
    (platformDict ps).map Prod.fst = distinctPlatforms ps := by
  simpa [platformDict, distinctPlatforms] using keys_platformDict_aux ps []

/-- A list with fewer than two elements yields no index pairs `i < j`. -/
theorem allPairs_short {α : Type} (l : List α) (h : l.length < 2) :
    allPairs l = [] := by
  match l with
  | [] => rfl
  | [x] => rfl
  | x :: y :: rest => simp at h; omega

/-- Claim C6: within each event/outcome group the engine keeps at most one
quote per platform, the last quote in input order winning (the group stored
under key `k` is the input filtered to that key, in order, and the platform
dict maps each platform name to the last such quote); and a group with fewer
than two distinct platforms contributes no opportunity. -/
theorem claim_C6 (eng : ArbitrageEngine) (prices : List MarketPrice)
    (k name : String) (ps : List MarketPrice) :
    (lookupPlat (platformDict (lookupGroup (groupPrices prices) k)) name =
      lastQuoteFor name (prices.filter (fun q => quoteKey q = k))) ∧
    ((distinctPlatforms ps).length < 2 →
      processGroup eng (k, ps) = Except.ok []) := by
  constructor
  · rw [lookupGroup_groupPrices, lookupPlat_platformDict]
  · intro h
    unfold processGroup
    by_cases hlen : ps.length < 2
    · have h2 : ((k, ps) : String × List MarketPrice).2.length < 2 := hlen
      rw [if_pos h2]
    · have h2 : ¬((k, ps).2.length < 2) := hlen
      rw [if_neg h2]
      have hpd : (platformDict ps).length < 2 := by
        have hkeys := keys_platformDict ps
        have hlenmap : ((platformDict ps).map Prod.fst).length =
            (platformDict ps).length := List.length_map _ _
        rw [← hlenmap, hkeys]
        exact h
      rw [show (k, ps).2 = ps from rfl, allPairs_short _ hpd]
      rfl

theorem claim_C6_witness :
    (lookupPlat (platformDict (lookupGroup (groupPrices [qKalshi, qPoly]) "e|YES"))
        "Kalshi" =
      lastQuoteFor "Kalshi"
        (([qKalshi, qPoly]).filter (fun q => quoteKey q = "e|YES"))) ∧
    processGroup engineDefault ("e|YES", [qKalshi]) = Except.ok [] :=
  ⟨(claim_C6 engineDefault [qKalshi, qPoly] "e|YES" "Kalshi" [qKalshi]).1,
   (claim_C6 engineDefault [qKalshi, qPoly] "e|YES" "Kalshi" [qKalshi]).2
     (by simp [distinctPlatforms])⟩

/-- A quote with non-negative bid and ask has a strictly positive mid-price:
either both sides are non-zero (so positive, with positive mean) or the
neutral default `0.5` applies. -/
theorem mid_pos (p : MarketPrice) (hb : 0 ≤ p.bid) (ha : 0 ≤ p.ask) :
    0 < p.mid := by
  unfold MarketPrice.mid
  by_cases h : p.bid ≠ 0 ∧ p.ask ≠ 0
  · rw [if_pos h]
    have hb' : 0 < p.bid := lt_of_le_of_ne hb (Ne.symm h.1)
    have ha' : 0 < p.ask := lt_of_le_of_ne ha (Ne.symm h.2)
    linarith
  · rw [if_neg h]
    norm_num

/-- A pair of quotes with positive mids never raises: the divisor is the
smaller mid, which is positive. -/
theorem comparePair_ok (eng : ArbitrageEngine) (key : String)
    (a b : String × MarketPrice) (h1 : 0 < a.2.mid) (h2 : 0 < b.2.mid) :
    ∃ o, comparePair eng key a b = Except.ok o := by
  rw [comparePair_eq, if_neg (ne_of_gt (lt_min h1 h2))]
  split
  · exact ⟨_, rfl⟩
  · exact ⟨_, rfl⟩

/-- Both components of an emitted index pair belong to the list. -/
theorem allPairs_mem {α : Type} (l : List α) (x y : α)
    (h : (x, y) ∈ allPairs l) : x ∈ l ∧ y ∈ l := by
  induction l with
  | nil => cases h
  | cons a rest ih =>
      simp only [allPairs, List.mem_append, List.mem_map] at h
      rcases h with ⟨z, hz, heq⟩ | h
      · obtain ⟨rfl, rfl⟩ : a = x ∧ z = y := by
          constructor <;> [exact congrArg Prod.fst heq; exact congrArg Prod.snd heq]
        exact ⟨List.mem_cons_self _ _, List.mem_cons_of_mem _ hz⟩
      · obtain ⟨hx, hy⟩ := ih h
        exact ⟨List.mem_cons_of_mem _ hx, List.mem_cons_of_mem _ hy⟩

/-- An entry of the dict after one assignment is an old entry or the new
value. -/
theorem mem_insertPlatform (d : List (String × MarketPrice)) (k : String)
    (p : MarketPrice) (n : String) (q : MarketPrice)
    (h : (n, q) ∈ insertPlatform d k p) : (n, q) ∈ d ∨ q = p := by
  induction d with
  | nil =>
      simp only [insertPlatform, List.mem_singleton] at h
      exact Or.inr (congrArg Prod.snd h)
  | cons hd rest ih =>
      obtain ⟨k₀, p₀⟩ := hd
      by_cases h₀ : k₀ = k
      · subst h₀
        rw [insertPlatform, if_pos rfl] at h
        rcases List.mem_cons.mp h with heq | hmem
        · exact Or.inr (congrArg Prod.snd heq)
        · exact Or.inl (List.mem_cons_of_mem _ hmem)
      · rw [insertPlatform, if_neg h₀] at h
        rcases List.mem_cons.mp h with heq | hmem
        · exact Or.inl (heq ▸ List.mem_cons_self _ _)
        · rcases ih hmem with hd | hp
          · exact Or.inl (List.mem_cons_of_mem _ hd)
          · exact Or.inr hp

/-- Every value stored in the platform dict is a quote of the group. -/
theorem mem_platformDict (ps : List MarketPrice) (n : String) (q : MarketPrice)
    (h : (n, q) ∈ platformDict ps) : q ∈ ps := by
  suffices haux : ∀ d : List (String × MarketPrice),
      (n, q) ∈ ps.foldl (fun d p => insertPlatform d p.platform p) d →
        (n, q) ∈ d ∨ q ∈ ps by
    rcases haux [] h with hin | hin
    · exact absurd hin (List.not_mem_nil _)
    · exact hin
  clear h
  induction ps with
  | nil => intro d hd; exact Or.inl hd
  | cons p rest ih =>
      intro d hd
      rw [List.foldl_cons] at hd
      rcases ih (insertPlatform d p.platform p) hd with hin | hin
      · rcases mem_insertPlatform d p.platform p n q hin with hold | hnew
        · exact Or.inl hold
        · exact Or.inr (hnew ▸ List.mem_cons_self _ _)
      · exact Or.inr (List.mem_cons_of_mem _ hin)

/-- The pair loop never raises when every compared quote has a positive mid. -/
theorem processGroupPairs_ok (eng : ArbitrageEngine) (key : String)
    (l : List ((String × MarketPrice) × (String × MarketPrice)))
    (h : ∀ pr ∈ l, 0 < (pr : (String × MarketPrice) × (String × MarketPrice)).1.2.mid
      ∧ 0 < pr.2.2.mid) :
    ∃ opps, processGroupPairs eng key l = Except.ok opps := by
  induction l with
  | nil => exact ⟨[], rfl⟩
  | cons pr rest ih =>
      obtain ⟨o, ho⟩ := comparePair_ok eng key pr.1 pr.2
        (h pr (List.mem_cons_self _ _)).1 (h pr (List.mem_cons_self _ _)).2
      obtain ⟨opps, hopps⟩ := ih fun pr' h' => h pr' (List.mem_cons_of_mem _ h')
      exact ⟨o.toList ++ opps, by simp [processGroupPairs, ho, hopps]⟩

/-- One group never raises when every quote of the group has a positive mid. -/
theorem processGroup_ok (eng : ArbitrageEngine) (g : String × List MarketPrice)
    (h : ∀ q ∈ g.2, 0 < MarketPrice.mid q) :
    ∃ opps, processGroup eng g = Except.ok opps := by
  unfold processGroup
  by_cases hlen : g.2.length < 2
  · exact ⟨[], by rw [if_pos hlen]⟩
  · rw [if_neg hlen]
    refine processGroupPairs_ok eng g.1 _ ?_
    intro pr hpr
    obtain ⟨hx, hy⟩ := allPairs_mem (platformDict g.2) pr.1 pr.2 hpr
    exact ⟨h _ (mem_platformDict g.2 pr.1.1 pr.1.2 hx),
      h _ (mem_platformDict g.2 pr.2.1 pr.2.2 hy)⟩

/-- The group loop never raises when no group raises. -/
theorem processGroups_ok (eng : ArbitrageEngine)
    (gs : List (String × List MarketPrice))
    (h : ∀ g ∈ gs, ∃ opps, processGroup eng g = Except.ok opps) :
    ∃ opps, processGroups eng gs = Except.ok opps := by
  induction gs with
  | nil => exact ⟨[], rfl⟩
  | cons g rest ih =>
      obtain ⟨here, hg⟩ := h g (List.mem_cons_self _ _)
      obtain ⟨later, hr⟩ := ih fun g' h' => h g' (List.mem_cons_of_mem _ h')
      exact ⟨here ++ later, by simp [processGroups, hg, hr]⟩

/-- Claim C10: when every input quote has non-negative bid and ask, every
mid-price the engine uses is strictly positive (either the `0.5` default or
the mean of two positive sides), so the divisor in the spread computation is
never zero and `process_prices` returns normally. -/
theorem claim_C10 (eng : ArbitrageEngine) (prices : List MarketPrice)
    (h : ∀ q ∈ prices, 0 ≤ MarketPrice.bid q ∧ 0 ≤ MarketPrice.ask q) :
    (∀ q ∈ prices, 0 < MarketPrice.mid q) ∧
    ∃ opps, process_prices eng prices = Except.ok opps := by
  have hmid : ∀ q ∈ prices, 0 < MarketPrice.mid q :=
    fun q hq => mid_pos q (h q hq).1 (h q hq).2
  refine ⟨hmid, ?_⟩
  unfold process_prices
  refine processGroups_ok eng _ ?_
  rintro ⟨k, ps⟩ hg
  refine processGroup_ok eng (k, ps) ?_
  intro q hq
  have hps : lookupGroup (groupPrices prices) k = ps :=
    lookupGroup_of_mem _ (groupPrices_keys_nodup prices) _ _ hg
  rw [show ((k, ps) : String × List MarketPrice).2 = ps from rfl] at hq
  rw [← hps, lookupGroup_groupPrices] at hq
  exact hmid q (List.mem_filter.mp hq).1

theorem claim_C10_witness :
    (∀ q ∈ [qKalshi, qPoly], 0 < MarketPrice.mid q) ∧
    ∃ opps, process_prices engineDefault [qKalshi, qPoly] = Except.ok opps :=
  claim_C10 engineDefault [qKalshi, qPoly]
    (by norm_num [List.forall_mem_cons, qKalshi, qPoly])

/-- Claim C8: the net spread computed by `process_prices` (line 160,
`net_spread = spread - 2 * fee_pct`) is monotonically decreasing in the fee:
for a fixed raw spread `r` and fees `f1 ≤ f2`, the net spread at `f2` is at
most the net spread at `f1`. -/
theorem claim_C8 (r f1 f2 : ℚ) (h : f1 ≤ f2) :
    netSpreadOf r f2 ≤ netSpreadOf r f1 := by
  unfold netSpreadOf
  linarith

theorem claim_C8_witness : netSpreadOf 10 2 ≤ netSpreadOf 10 1 :=
  claim_C8 10 1 2 (by norm_num)

/-- Claim C9: `process_prices` is a pure, deterministic function of the quote
list and the engine's `min_spread` and `fee_pct`: the Python method reads only
those two attributes, mutates no attribute and no global (its `opportunities`
and `grouped` bindings are local), so it embeds as a pure function and two
calls on the same input yield the same result. -/
theorem claim_C9 (eng : ArbitrageEngine) (prices : List MarketPrice) :
    process_prices eng prices = process_prices eng prices :=
  rfl

end ArbScan
